import Mathlib

/-!
Verification of the HOA reconciliation/merge engine (`hoa_report.engine`,
`hoa_report.qa.loan_id`).  Dataframes are embedded as lists of structured
rows; scalar cells are a tagged union covering null, NaN, strings and
numerics, mirroring how the Python code inspects cell values
(`value is None`, `isinstance(value, str)`, NaN self-inequality).
-/

set_option maxHeartbeats 1000000

namespace HoaReport

/-- A scalar cell value.  Numeric cells enter `str(x)` conversions through
their decimal text form; NaN floats are the distinguished `vNaN`. -/
inductive Value where
  | vNull : Value
  | vNaN : Value
  | vStr : String → Value
  | vNum : Int → Value
deriving DecidableEq, Repr

/-- Python whitespace for `str.strip()` (ASCII range). -/
def isPyWs (c : Char) : Bool :=
  c = ' ' || c = '\t' || c = '\n' || c = '\r' || c = '\x0b' || c = '\x0c'

/-- `str.strip()` on a character list: drop leading and trailing whitespace. -/
def stripChars (l : List Char) : List Char :=
  ((l.dropWhile isPyWs).reverse.dropWhile isPyWs).reverse

/-- `str.strip()`. -/
def pyStrip (s : String) : String := ⟨stripChars s.data⟩

/-- engine._is_blank: null, NaN-like float, or whitespace-only string. -/
def _is_blank : Value → Bool
  | .vNull => true
  | .vNaN => true
  | .vStr s => pyStrip s = ""
  | .vNum _ => false

/-- `str(x)` for the scalar values the code feeds through text conversion. -/
def valueToStr : Value → String
  | .vNull => "None"
  | .vNaN => "nan"
  | .vStr s => s
  | .vNum n => toString n

/-- ASCII alphanumeric, the character class kept by `[^A-Za-z0-9]` removal. -/
def isAsciiAlnum (c : Char) : Bool :=
  ('A' ≤ c && c ≤ 'Z') || ('a' ≤ c && c ≤ 'z') || ('0' ≤ c && c ≤ '9')

/-- Strip one trailing literal ".0", as `re.sub(r"\.0$", "", s)` does. -/
def dropDotZero (l : List Char) : List Char :=
  if ['.', '0'] <:+ l then l.dropLast.dropLast else l

/-- The string pipeline of `normalize_loan_id`: strip, drop trailing ".0",
remove non-alphanumerics, upper-case, empty result means Absent. -/
def normStringId (s : String) : Option String :=
  let l := ((dropDotZero (stripChars s.data)).filter isAsciiAlnum).map Char.toUpper
  if l.isEmpty then none else some ⟨l⟩

/-- qa.loan_id.normalize_loan_id: canonical identifier, `none` is Absent. -/
def normalize_loan_id : Value → Option String
  | .vNull => none
  | .vNaN => none
  | .vStr s => normStringId s
  | .vNum n => normStringId (toString n)

/-- engine._normalize_source_key: strip, lower-case, keep only `[a-z0-9]`. -/
def _normalize_source_key (name : String) : String :=
  ⟨((stripChars name.data).map Char.toLower).filter
    (fun c => ('a' ≤ c && c ≤ 'z') || ('0' ≤ c && c ≤ '9'))⟩

/-- The five HOA enrichment value columns (`_HOA_VALUE_COLUMNS`):
`HOA_WIDE_CANONICAL_COLUMNS` minus the two provenance columns. -/
structure HoaVals where
  hoa_monthly_dues_amount : Value
  hoa_monthly_dues_frequency : Value
  hoa_transfer_fee_amount : Value
  hoa_special_assessment_amount : Value
  hoa_notes : Value
deriving DecidableEq, Repr

/-- Names of the five HOA enrichment value columns. -/
inductive HField where
  | duesAmount : HField
  | duesFrequency : HField
  | transferFee : HField
  | specialAssessment : HField
  | notes : HField
deriving DecidableEq, Repr

/-- Column access on the five enrichment columns. -/
def HoaVals.get (h : HoaVals) : HField → Value
  | .duesAmount => h.hoa_monthly_dues_amount
  | .duesFrequency => h.hoa_monthly_dues_frequency
  | .transferFee => h.hoa_transfer_fee_amount
  | .specialAssessment => h.hoa_special_assessment_amount
  | .notes => h.hoa_notes

/-- The iteration order `for column in _HOA_VALUE_COLUMNS`. -/
def HField.all : List HField :=
  [.duesAmount, .duesFrequency, .transferFee, .specialAssessment, .notes]

/-- A vendor source row after `enforce_hoa_extractor_columns`: the loan_id
column, the five value columns, and the two provenance columns (absent
columns were filled with `None` at the boundary). -/
structure SrcRow where
  loan_id : Value
  hoa : HoaVals
  hoa_source : Value
  hoa_source_file : Value
deriving DecidableEq, Repr

/-- A tape (`loan_master_df`) row: loan_id, the seven canonical HOA columns
(filled with `None` when the tape lacks them), and all remaining tape
columns as an opaque ordered payload. -/
structure TapeRow where
  loan_id : Value
  hoa : HoaVals
  hoa_source : Value
  hoa_source_file : Value
  extra : List (String × Value)
deriving DecidableEq, Repr

/-- engine._PreparedSource: rows keyed by normalized loan_id (rows whose
identifier normalized to Absent were dropped). -/
structure PreparedSource where
  original_index : Nat
  source_name : String
  source_file : Option String
  rows : List (String × SrcRow)
deriving DecidableEq, Repr

/-- The fatal errors `merge_hoa_sources` raises (ValueError payloads). -/
inductive MergeError where
  | invalidTapeIds : Nat → MergeError
  | dupIds : List String → MergeError
deriving DecidableEq, Repr

/-- One vendor's entry in the exception report. -/
structure VendorException where
  missing_in_vendor : List String
  extra_in_vendor : List String
  missing_in_vendor_count : Nat
  extra_in_vendor_count : Nat
deriving DecidableEq, Repr

/-- A merged output row: normalized loan_id, the overwritten enrichment
columns, the untouched tape provenance columns, the three added columns,
and the untouched remaining tape columns. -/
structure MergedRow where
  loan_id : String
  hoa : HoaVals
  hoa_source : Value
  hoa_source_file : Value
  hoa_source_used : Value
  hoa_source_file_used : Value
  hoa_discrepancy_flag : Bool
  extra : List (String × Value)
deriving DecidableEq, Repr

/-- engine._first_non_blank: first non-blank value, as a stripped string. -/
def _first_non_blank (vs : List Value) : Option String :=
  (vs.find? (fun v => !(_is_blank v))).map (fun v => pyStrip (valueToStr v))

/-- Normalize a source's loan_id column and drop rows whose identifier is
Absent (engine lines 163-164). -/
def keepIdentified (rows : List SrcRow) : List (String × SrcRow) :=
  rows.filterMap (fun r => (normalize_loan_id r.loan_id).map (fun i => (i, r)))

/-- pandas `Series.duplicated()` with keep-first: the values at positions
whose value already occurred earlier (`seen` holds the earlier values). -/
def dupsAfterFirst : List String → List String → List String
  | [], _ => []
  | k :: rest, seen =>
      if k ∈ seen then k :: dupsAfterFirst rest seen
      else dupsAfterFirst rest (seen ++ [k])

/-- pandas `.unique()`: first occurrences, input order preserved. -/
def dedupFirst : List String → List String → List String
  | [], _ => []
  | k :: rest, seen =>
      if k ∈ seen then dedupFirst rest seen
      else k :: dedupFirst rest (seen ++ [k])

/-- Python `sorted` on strings (lexicographic on code points). -/
def sortStr (l : List String) : List String := l.insertionSort (· ≤ ·)

/-- engine._prepare_source. -/
def _prepare_source (df : List SrcRow) (original_index : Nat) :
    Except MergeError PreparedSource :=
  let keyed := keepIdentified df
  let dups := dupsAfterFirst (keyed.map Prod.fst) []
  if dups.isEmpty then
    .ok { original_index := original_index
          source_name := (_first_non_blank (keyed.map (fun p => p.2.hoa_source))).getD
            ("source_" ++ toString (original_index + 1))
          source_file := _first_non_blank (keyed.map (fun p => p.2.hoa_source_file))
          rows := keyed }
  else .error (.dupIds (sortStr (dedupFirst dups [])))

/-- The `[_prepare_source(df, idx) for idx, df in enumerate(hoa_sources)]`
comprehension, with each source's failure propagated. -/
def prepareAll : List (List SrcRow) → Nat → Except MergeError (List PreparedSource)
  | [], _ => .ok []
  | df :: rest, i =>
      match _prepare_source df i with
      | .error e => .error e
      | .ok p =>
          match prepareAll rest (i + 1) with
          | .error e => .error e
          | .ok ps => .ok (p :: ps)

/-- The `priority_rank` dict: first occurrence of each non-empty normalized
priority name, mapped to its position in the priority list. -/
def priorityRank : List String → Nat → List (String × Nat) → List (String × Nat)
  | [], _, acc => acc
  | n :: rest, i, acc =>
      let k := _normalize_source_key n
      if k ≠ "" && (acc.find? (fun p => p.1 == k)).isNone
      then priorityRank rest (i + 1) (acc ++ [(k, i)])
      else priorityRank rest (i + 1) acc

/-- `priority_rank.get(key, fallback_rank)`. -/
def rankOf (pr : List (String × Nat)) (fb : Nat) (key : String) : Nat :=
  ((pr.find? (fun p => p.1 == key)).map Prod.snd).getD fb

/-- The two-level sort key (priority rank, original position). -/
def sourceKey (pr : List (String × Nat)) (s : PreparedSource) : Nat × Nat :=
  (rankOf pr pr.length (_normalize_source_key s.source_name), s.original_index)

/-- Lexicographic comparison of sort keys. -/
def keyLe (a b : Nat × Nat) : Bool :=
  a.1 < b.1 || (a.1 == b.1 && a.2 ≤ b.2)

/-- Stable insertion of one element under a boolean comparison. -/
def insertBy (le : α → α → Bool) (x : α) : List α → List α
  | [] => [x]
  | y :: ys => if le x y then x :: y :: ys else y :: insertBy le x ys

/-- Stable sort under a boolean comparison (Python `sorted` with a key). -/
def sortBy (le : α → α → Bool) : List α → List α
  | [] => []
  | x :: xs => insertBy le x (sortBy le xs)

/-- engine._resolve_priority_order. -/
def _resolve_priority_order (srcs : List PreparedSource) (priority : List String) :
    List PreparedSource :=
  let pr := priorityRank priority 0 []
  sortBy (fun a b => keyLe (sourceKey pr a) (sourceKey pr b)) srcs

/-- engine._normalize_discrepancy_value: blank is excluded, strings are
stripped, anything else compares raw. -/
def _normalize_discrepancy_value (v : Value) : Option Value :=
  if _is_blank v then none
  else match v with
    | .vStr s => some (.vStr (pyStrip s))
    | v => some v

/-- The scanning loop of `_values_disagree`, with its `seen` accumulator. -/
def disagreeGo : List Value → List Value → Bool
  | [], _ => false
  | v :: rest, seen =>
      match _normalize_discrepancy_value v with
      | none => disagreeGo rest seen
      | some d =>
          if d ∈ seen then disagreeGo rest seen
          else if seen.length + 1 > 1 then true
          else disagreeGo rest (seen ++ [d])

/-- engine._values_disagree: two or more distinct non-blank values. -/
def _values_disagree (vs : List Value) : Bool := disagreeGo vs []

/-- Reading a joined source cell: a tape row with no match in the source
carries NaN in every joined column (pandas left-merge fill). -/
def getHoaOpt : Option SrcRow → HField → Value
  | none, _ => .vNaN
  | some r, f => r.hoa.get f

/-- One iteration of the waterfall fill: adopt this source's value when the
selection is still blank and the source value is not. -/
def waterfallStep (acc : Value × Int) (p : Nat × Value) : Value × Int :=
  if _is_blank acc.1 && !(_is_blank p.2) then (p.2, Int.ofNat p.1) else acc

/-- The per-field waterfall (engine lines 266-282): sources in priority
order, then fallback to the tape's pre-existing value (rank -2), else
unset (None, rank -1). -/
def selectedForField (base : Value) (srcs : List (Option SrcRow)) (f : HField) :
    Value × Int :=
  let folded := ((srcs.map (fun o => getHoaOpt o f)).enum).foldl waterfallStep
    ((Value.vNull : Value), (-1 : Int))
  if _is_blank folded.1 && !(_is_blank base) then (base, -2) else folded

/-- Provenance resolution (engine lines 284-302): walk sources in rank
order; the first rank that contributed any field supplies source/file,
with per-row blanks defaulting to the source's declared name/file. -/
def provenanceStep (ranks : HField → Int) (acc : Value × Value)
    (p : Nat × (Option SrcRow × PreparedSource)) : Value × Value :=
  let contribution := HField.all.any (fun f => ranks f == Int.ofNat p.1)
  let rawSource := match p.2.1 with
    | none => Value.vNaN
    | some r => r.hoa_source
  let resolvedSource := if _is_blank rawSource then Value.vStr p.2.2.source_name
    else rawSource
  let rawFile := match p.2.1 with
    | none => Value.vNaN
    | some r => r.hoa_source_file
  let resolvedFile :=
    if _is_blank rawFile && p.2.2.source_file.isSome
    then Value.vStr (p.2.2.source_file.getD "") else rawFile
  let su := if _is_blank acc.1 && contribution then resolvedSource else acc.1
  let sf := if _is_blank acc.2 && contribution then resolvedFile else acc.2
  (su, sf)

/-- Fold of `provenanceStep` over the ranked sources. -/
def resolveProvenance (srcs : List (Option SrcRow)) (ordered : List PreparedSource)
    (ranks : HField → Int) : Value × Value :=
  ((srcs.zip ordered).enum).foldl (provenanceStep ranks)
    ((Value.vNull : Value), (Value.vNull : Value))

/-- Per-row discrepancy (engine lines 314-331): OR over fields of
`_values_disagree` on tape value followed by every source's raw value;
with no sources the comparison set is skipped. -/
def rowDiscrepancy (t : TapeRow) (srcs : List (Option SrcRow)) : Bool :=
  if srcs.isEmpty then false
  else HField.all.any (fun f =>
    _values_disagree (t.hoa.get f :: srcs.map (fun o => getHoaOpt o f)))

/-- A row of the working frame: the tape row it came from, its normalized
identifier, and the joined (optional) row of each merged source so far. -/
structure WorkRow where
  tape : TapeRow
  loan_id : String
  srcs : List (Option SrcRow)
deriving DecidableEq, Repr

/-- One pandas `merge(..., on="loan_id", how="left")` against a prepared
source: each work row pairs with every matching source row, or with `none`
when the source has no match.  Rows can multiply only when a source holds
duplicate normalized identifiers, which `_prepare_source` rejects. -/
def leftMergeStep (ws : List WorkRow) (src : PreparedSource) : List WorkRow :=
  ws.flatMap (fun w =>
    match src.rows.filter (fun p => p.1 == w.loan_id) with
    | [] => [{ w with srcs := w.srcs ++ [none] }]
    | ms => ms.map (fun m => { w with srcs := w.srcs ++ [some m.2] }))

/-- Assemble one merged output row from a work row. -/
def buildMergedRow (t : TapeRow) (lid : String) (srcs : List (Option SrcRow))
    (ordered : List PreparedSource) : MergedRow :=
  let sel := fun f => selectedForField (t.hoa.get f) srcs f
  let prov := resolveProvenance srcs ordered (fun f => (sel f).2)
  { loan_id := lid
    hoa :=
      { hoa_monthly_dues_amount := (sel .duesAmount).1
        hoa_monthly_dues_frequency := (sel .duesFrequency).1
        hoa_transfer_fee_amount := (sel .transferFee).1
        hoa_special_assessment_amount := (sel .specialAssessment).1
        hoa_notes := (sel .notes).1 }
    hoa_source := t.hoa_source
    hoa_source_file := t.hoa_source_file
    hoa_source_used := if _is_blank prov.1 then t.hoa_source else prov.1
    hoa_source_file_used := if _is_blank prov.2 then t.hoa_source_file else prov.2
    hoa_discrepancy_flag := rowDiscrepancy t srcs
    extra := t.extra }

/-- `sorted(setA - setB)` on identifier lists. -/
def setDiffSorted (a b : List String) : List String :=
  sortStr (dedupFirst (a.filter (fun x => !(b.contains x))) [])

/-- One vendor's exception entry (engine lines 337-352). -/
def vendorException (tapeIds vendorIds : List String) : VendorException :=
  let missing := setDiffSorted tapeIds vendorIds
  let extra := setDiffSorted vendorIds tapeIds
  { missing_in_vendor := missing
    extra_in_vendor := extra
    missing_in_vendor_count := missing.length
    extra_in_vendor_count := extra.length }

/-- `seen_vendor_names[name] = existing + 1`. -/
def updateSeen (seen : List (String × Nat)) (name : String) : List (String × Nat) :=
  match seen.find? (fun p => p.1 == name) with
  | none => seen ++ [(name, 1)]
  | some _ => seen.map (fun p => if p.1 == name then (p.1, p.2 + 1) else p)

/-- The per-vendor exception loop, disambiguating repeated display names
with an occurrence suffix. -/
def buildExceptions (tapeIds : List String) :
    List PreparedSource → List (String × Nat) → List (String × VendorException)
  | [], _ => []
  | s :: rest, seen =>
      let cnt := ((seen.find? (fun p => p.1 == s.source_name)).map Prod.snd).getD 0
      let key := if cnt = 0 then s.source_name
        else s.source_name ++ "_" ++ toString (cnt + 1)
      (key, vendorException tapeIds (s.rows.map Prod.fst)) ::
        buildExceptions tapeIds rest (updateSeen seen s.source_name)

/-- engine.merge_hoa_sources.  The tape's loan_id column is structural in
this embedding, so the missing-column ValueError (line 231) has no
counterpart; the blank-identifier check and all downstream steps follow
the source line by line. -/
def merge_hoa_sources (tape : List TapeRow) (hoa_sources : List (List SrcRow))
    (priority : List String) :
    Except MergeError (List MergedRow × List (String × VendorException)) :=
  let invalid := (tape.filter (fun t => (normalize_loan_id t.loan_id).isNone)).length
  if invalid ≠ 0 then .error (.invalidTapeIds invalid)
  else
    match prepareAll hoa_sources 0 with
    | .error e => .error e
    | .ok prepared =>
        let ordered := _resolve_priority_order prepared priority
        let init := tape.map (fun t =>
          { tape := t, loan_id := (normalize_loan_id t.loan_id).getD ""
            srcs := ([] : List (Option SrcRow)) })
        let work := ordered.foldl leftMergeStep init
        let merged := work.map (fun w => buildMergedRow w.tape w.loan_id w.srcs ordered)
        let tapeIds := tape.filterMap (fun t => normalize_loan_id t.loan_id)
        .ok (merged, buildExceptions tapeIds ordered [])

example : normalize_loan_id (.vStr "1001.0") = some "1001" := by decide
example : normalize_loan_id (.vStr " 1001 ") = some "1001" := by decide
example : normalize_loan_id (.vStr "L-1") = some "L1" := by decide
example : normalize_loan_id (.vStr " .-; ") = none := by decide
example : normalize_loan_id (.vNum 17) = some "17" := by decide
example : normalize_loan_id .vNaN = none := by decide
example : _normalize_source_key " High_Vendor " = "highvendor" := by decide
example : _is_blank (.vStr "  ") = true := by decide
example : _is_blank (.vNum 0) = false := by decide

/-! ### Duplicate-marking, dedup and sort lemmas -/

theorem mem_dupsAfterFirst (x : String) :
    ∀ (ks seen : List String),
      x ∈ dupsAfterFirst ks seen ↔ x ∈ ks ∧ (x ∈ seen ∨ 2 ≤ ks.count x)
  | [], seen => by simp [dupsAfterFirst]
  | k :: rest, seen => by
    by_cases hx : x = k
    · subst hx
      by_cases hk : x ∈ seen
      · rw [dupsAfterFirst, if_pos hk]
        simp [hk]
      · rw [dupsAfterFirst, if_neg hk, mem_dupsAfterFirst x rest (seen ++ [x])]
        have hc : (x :: rest).count x = rest.count x + 1 := by
          rw [List.count_cons]
          simp
        constructor
        · rintro ⟨hr, _⟩
          have : 0 < rest.count x := List.count_pos_iff.mpr hr
          exact ⟨List.mem_cons_self x rest, Or.inr (by omega)⟩
        · rintro ⟨_, h | h⟩
          · exact absurd h hk
          · have : 0 < rest.count x := by omega
            exact ⟨List.count_pos_iff.mp this, Or.inl (by simp)⟩
    · have hcount : (k :: rest).count x = rest.count x := by
        rw [List.count_cons, if_neg (by simp only [beq_iff_eq]; exact fun h => hx h.symm),
          Nat.add_zero]
      by_cases hk : k ∈ seen
      · rw [dupsAfterFirst, if_pos hk]
        simp only [List.mem_cons, hx, false_or, mem_dupsAfterFirst x rest seen, hcount]
      · rw [dupsAfterFirst, if_neg hk, mem_dupsAfterFirst x rest (seen ++ [k])]
        simp only [List.mem_append, List.mem_singleton, hx, or_false, List.mem_cons,
          false_or, hcount, List.not_mem_nil]

theorem dupsAfterFirst_nil_iff (ks : List String) :
    dupsAfterFirst ks [] = [] ↔ ks.Nodup := by
  rw [List.eq_nil_iff_forall_not_mem]
  constructor
  · intro h
    rw [List.nodup_iff_count_le_one]
    intro a
    by_contra hc
    push_neg at hc
    have ha : a ∈ ks := List.count_pos_iff.mp (by omega)
    exact h a ((mem_dupsAfterFirst a ks []).mpr ⟨ha, Or.inr (by omega)⟩)
  · intro h a ha
    rw [mem_dupsAfterFirst] at ha
    rcases ha with ⟨ha1, h2 | h2⟩
    · simp at h2
    · have := (List.nodup_iff_count_le_one.mp h) a
      omega


theorem mem_dedupFirst (x : String) :
    ∀ (l seen : List String), x ∈ dedupFirst l seen ↔ x ∈ l ∧ x ∉ seen
  | [], seen => by simp [dedupFirst]
  | k :: rest, seen => by
    by_cases hk : k ∈ seen
    · rw [dedupFirst, if_pos hk, mem_dedupFirst x rest seen]
      by_cases hx : x = k
      · subst hx
        simp [hk]
      · simp [hx]
    · rw [dedupFirst, if_neg hk]
      by_cases hx : x = k
      · subst hx
        simp [hk]
      · constructor
        · intro hmem
          rcases List.mem_cons.mp hmem with h | h
          · exact absurd h hx
          · have := (mem_dedupFirst x rest (seen ++ [k])).mp h
            exact ⟨List.mem_cons_of_mem _ this.1,
              fun hs => this.2 (List.mem_append_left _ hs)⟩
        · rintro ⟨h1, h2⟩
          rcases List.mem_cons.mp h1 with h | h
          · exact absurd h hx
          · refine List.mem_cons_of_mem _ ((mem_dedupFirst x rest (seen ++ [k])).mpr ⟨h, ?_⟩)
            intro hs
            rcases List.mem_append.mp hs with hs | hs
            · exact h2 hs
            · exact hx (List.mem_singleton.mp hs)

theorem nodup_dedupFirst : ∀ (l seen : List String), (dedupFirst l seen).Nodup
  | [], _ => List.nodup_nil
  | k :: rest, seen => by
    by_cases hk : k ∈ seen
    · rw [dedupFirst, if_pos hk]
      exact nodup_dedupFirst rest seen
    · rw [dedupFirst, if_neg hk]
      refine List.Nodup.cons ?_ (nodup_dedupFirst rest (seen ++ [k]))
      intro hmem
      have := (mem_dedupFirst k rest (seen ++ [k])).mp hmem
      exact this.2 (by simp)


theorem mem_sortStr (x : String) (l : List String) : x ∈ sortStr l ↔ x ∈ l :=
  List.mem_insertionSort _

theorem sorted_sortStr (l : List String) : (sortStr l).Sorted (· ≤ ·) :=
  List.sorted_insertionSort _ l

theorem nodup_sortStr (l : List String) (h : l.Nodup) : (sortStr l).Nodup :=
  ((List.perm_insertionSort _ l).nodup_iff).mpr h


theorem _prepare_source_ok_nodup {df : List SrcRow} {i : Nat} {p : PreparedSource}
    (h : _prepare_source df i = .ok p) : (p.rows.map Prod.fst).Nodup := by
  simp only [_prepare_source] at h
  split at h
  · rename_i hd
    cases h
    have : dupsAfterFirst ((keepIdentified df).map Prod.fst) [] = [] :=
      List.isEmpty_iff.mp hd
    exact (dupsAfterFirst_nil_iff _).mp this
  · cases h

theorem prepareAll_ok_nodup :
    ∀ (dfs : List (List SrcRow)) (i : Nat) (ps : List PreparedSource),
      prepareAll dfs i = .ok ps → ∀ p ∈ ps, (p.rows.map Prod.fst).Nodup
  | [], i, ps => by
    intro h p hp
    rw [prepareAll] at h
    cases h
    simp at hp
  | df :: rest, i, ps => by
    intro h p hp
    rw [prepareAll] at h
    cases hdf : _prepare_source df i with
    | error e => rw [hdf] at h; cases h
    | ok q =>
      rw [hdf] at h
      cases hrest : prepareAll rest (i + 1) with
      | error e => rw [hrest] at h; cases h
      | ok qs =>
        rw [hrest] at h
        cases h
        rcases List.mem_cons.mp hp with rfl | hp2
        · exact _prepare_source_ok_nodup hdf
        · exact prepareAll_ok_nodup rest (i + 1) qs hrest p hp2

theorem insertBy_perm {α : Type} (le : α → α → Bool) (x : α) :
    ∀ l : List α, List.Perm (insertBy le x l) (x :: l)
  | [] => .refl _
  | y :: ys => by
    rw [insertBy]
    split
    · exact .refl _
    · exact ((insertBy_perm le x ys).cons y).trans (.swap x y ys)

theorem sortBy_perm {α : Type} (le : α → α → Bool) :
    ∀ l : List α, List.Perm (sortBy le l) l
  | [] => .refl _
  | x :: xs => (insertBy_perm le x (sortBy le xs)).trans ((sortBy_perm le xs).cons x)

theorem mem_resolve_priority {srcs : List PreparedSource} {priority : List String}
    {s : PreparedSource} (h : s ∈ _resolve_priority_order srcs priority) : s ∈ srcs := by
  unfold _resolve_priority_order at h
  exact (sortBy_perm _ srcs).mem_iff.mp h

/-- Looking a normalized identifier up in a prepared source. -/
def lookupSrc (src : PreparedSource) (lid : String) : Option SrcRow :=
  (src.rows.find? (fun p => p.1 == lid)).map Prod.snd

/-- The joined row of every ordered source for one identifier. -/
def lookupAll (ordered : List PreparedSource) (lid : String) : List (Option SrcRow) :=
  ordered.map (fun s => lookupSrc s lid)

theorem filter_key_eq (lid : String) :
    ∀ (l : List (String × SrcRow)), (l.map Prod.fst).Nodup →
      l.filter (fun p => p.1 == lid) =
        (Option.map (fun m => [m]) (l.find? (fun p => p.1 == lid))).getD []
  | [], _ => rfl
  | q :: rest, h => by
    rw [List.map_cons, List.nodup_cons] at h
    by_cases hq : (q.1 == lid) = true
    · rw [List.filter_cons_of_pos (p := fun r : String × SrcRow => r.1 == lid) hq,
        List.find?_cons_of_pos (p := fun r : String × SrcRow => r.1 == lid) rest hq]
      have hfilter : rest.filter (fun p => p.1 == lid) = [] := by
        rw [List.filter_eq_nil_iff]
        intro p hp hbeq
        apply h.1
        have : p.1 = lid := by simpa using hbeq
        have hq1 : q.1 = lid := by simpa using hq
        rw [hq1, ← this]
        exact List.mem_map_of_mem Prod.fst hp
      rw [hfilter]
      rfl
    · rw [List.filter_cons_of_neg (p := fun r : String × SrcRow => r.1 == lid) hq,
        List.find?_cons_of_neg (p := fun r : String × SrcRow => r.1 == lid) rest hq]
      exact filter_key_eq lid rest h.2

theorem leftMergeStep_eq_map {src : PreparedSource}
    (h : (src.rows.map Prod.fst).Nodup) (ws : List WorkRow) :
    leftMergeStep ws src =
      ws.map (fun w => { w with srcs := w.srcs ++ [lookupSrc src w.loan_id] }) := by
  induction ws with
  | nil => rfl
  | cons w rest ih =>
    rw [leftMergeStep] at ih ⊢
    rw [List.flatMap_cons, List.map_cons, ih]
    rw [filter_key_eq w.loan_id src.rows h]
    cases hf : src.rows.find? (fun p => p.1 == w.loan_id) with
    | none => simp [lookupSrc, hf]
    | some m => simp [lookupSrc, hf]

theorem foldl_leftMerge :
    ∀ (ordered : List PreparedSource),
      (∀ s ∈ ordered, (s.rows.map Prod.fst).Nodup) →
      ∀ ws : List WorkRow,
        ordered.foldl leftMergeStep ws =
          ws.map (fun w => { w with srcs := w.srcs ++ lookupAll ordered w.loan_id })
  | [], _ => by
    intro ws
    simp only [List.foldl_nil, lookupAll, List.map_nil, List.append_nil]
    exact (List.map_id ws).symm
  | s :: rest, hn => by
    intro ws
    rw [List.foldl_cons, leftMergeStep_eq_map (hn s (by simp)),
      foldl_leftMerge rest (fun q hq => hn q (by simp [hq])),
      List.map_map]
    apply List.map_congr_left
    intro w _
    simp only [Function.comp, lookupAll, List.map_cons, List.append_assoc,
      List.singleton_append]


theorem merge_ok_parts {tape : List TapeRow} {srcs : List (List SrcRow)}
    {prio : List String} {out : List MergedRow × List (String × VendorException)}
    {prepared : List PreparedSource}
    (h : merge_hoa_sources tape srcs prio = .ok out)
    (hp : prepareAll srcs 0 = .ok prepared) :
    out.1 = tape.map (fun t =>
      buildMergedRow t ((normalize_loan_id t.loan_id).getD "")
        (lookupAll (_resolve_priority_order prepared prio)
          ((normalize_loan_id t.loan_id).getD ""))
        (_resolve_priority_order prepared prio)) ∧
    out.2 = buildExceptions (tape.filterMap (fun t => normalize_loan_id t.loan_id))
      (_resolve_priority_order prepared prio) [] := by
  simp only [merge_hoa_sources] at h
  split at h
  · cases h
  · rw [hp] at h
    dsimp only [] at h
    have hnodup : ∀ s ∈ _resolve_priority_order prepared prio,
        (s.rows.map Prod.fst).Nodup :=
      fun s hs => prepareAll_ok_nodup srcs 0 prepared hp s (mem_resolve_priority hs)
    rw [foldl_leftMerge _ hnodup, List.map_map, List.map_map] at h
    cases h
    refine ⟨?_, rfl⟩
    apply List.map_congr_left
    intro t _
    simp [Function.comp]


theorem merge_ok_prepareAll {tape : List TapeRow} {srcs : List (List SrcRow)}
    {prio : List String} {out : List MergedRow × List (String × VendorException)}
    (h : merge_hoa_sources tape srcs prio = .ok out) :
    ∃ prepared, prepareAll srcs 0 = .ok prepared := by
  simp only [merge_hoa_sources] at h
  split at h
  · cases h
  · cases hp : prepareAll srcs 0 with
    | error e => rw [hp] at h; cases h
    | ok prepared => exact ⟨prepared, rfl⟩

theorem find?_key_of_mem {lid : String} {r : SrcRow} :
    ∀ (l : List (String × SrcRow)), (l.map Prod.fst).Nodup →
      (lid, r) ∈ l → l.find? (fun p => p.1 == lid) = some (lid, r)
  | [], _, hm => by cases hm
  | q :: rest, h, hm => by
    rw [List.map_cons, List.nodup_cons] at h
    rcases List.mem_cons.mp hm with rfl | hm2
    · exact List.find?_cons_of_pos rest (by simp)
    · have hq : (q.1 == lid) = false := by
        rw [beq_eq_false_iff_ne]
        intro hq1
        apply h.1
        rw [hq1]
        exact List.mem_map_of_mem Prod.fst hm2
      rw [List.find?_cons_of_neg rest (by simp [hq])]
      exact find?_key_of_mem rest h.2 hm2


theorem lookupSrc_eq_some {src : PreparedSource} {lid : String} {r : SrcRow}
    (hn : (src.rows.map Prod.fst).Nodup) (hm : (lid, r) ∈ src.rows) :
    lookupSrc src lid = some r := by
  unfold lookupSrc
  rw [find?_key_of_mem src.rows hn hm]
  rfl

theorem buildMergedRow_get (t : TapeRow) (lid : String) (srcs : List (Option SrcRow))
    (ordered : List PreparedSource) (f : HField) :
    (buildMergedRow t lid srcs ordered).hoa.get f =
      (selectedForField (t.hoa.get f) srcs f).1 := by
  cases f <;> rfl

theorem snd_mem_of_mem_enumFrom {α : Type} {p : Nat × α} :
    ∀ {l : List α} {n : Nat}, p ∈ l.enumFrom n → p.2 ∈ l := by
  intro l
  induction l with
  | nil => intro n h; cases h
  | cons x xs ih =>
    intro n h
    rcases List.mem_cons.mp h with rfl | h2
    · exact List.mem_cons_self _ _
    · exact List.mem_cons_of_mem _ (ih h2)

theorem foldl_waterfall_blank :
    ∀ (l : List (Nat × Value)), (∀ p ∈ l, _is_blank p.2 = true) →
      l.foldl waterfallStep ((Value.vNull : Value), (-1 : Int)) =
        ((Value.vNull : Value), (-1 : Int))
  | [], _ => rfl
  | p :: rest, h => by
    rw [List.foldl_cons]
    have hstep : waterfallStep ((Value.vNull : Value), (-1 : Int)) p =
        ((Value.vNull : Value), (-1 : Int)) := by
      unfold waterfallStep
      rw [h p (List.mem_cons_self _ _)]
      rfl
    rw [hstep]
    exact foldl_waterfall_blank rest (fun q hq => h q (List.mem_cons_of_mem _ hq))

theorem selectedForField_all_blank (base : Value) {srcs : List (Option SrcRow)} {f : HField}
    (h : ∀ o ∈ srcs, _is_blank (getHoaOpt o f) = true) :
    selectedForField base srcs f =
      if _is_blank base then ((Value.vNull : Value), (-1 : Int)) else (base, -2) := by
  unfold selectedForField
  rw [List.enum]
  have hb : ((srcs.map (fun o => getHoaOpt o f)).enumFrom 0).foldl waterfallStep
      ((Value.vNull : Value), (-1 : Int)) = ((Value.vNull : Value), (-1 : Int)) := by
    apply foldl_waterfall_blank
    intro p hp
    have h2 : p.2 ∈ srcs.map (fun o => getHoaOpt o f) := snd_mem_of_mem_enumFrom hp
    obtain ⟨o, ho, heq⟩ := List.mem_map.mp h2
    rw [← heq]
    exact h o ho
  rw [hb]
  by_cases hbase : _is_blank base = true
  · simp [hbase]
  · rw [Bool.not_eq_true] at hbase
    simp [hbase]
    rfl


theorem resolve_two (pA pB : PreparedSource) (nA nB : String)
    (hkA : _normalize_source_key pA.source_name = _normalize_source_key nA)
    (hkB : _normalize_source_key pB.source_name = _normalize_source_key nB)
    (hA : _normalize_source_key nA ≠ "")
    (hB : _normalize_source_key nB ≠ "")
    (hne : _normalize_source_key nA ≠ _normalize_source_key nB) :
    _resolve_priority_order [pA, pB] [nA, nB] = [pA, pB] := by
  unfold _resolve_priority_order
  have hpr : priorityRank [nA, nB] 0 [] =
      [(_normalize_source_key nA, 0), (_normalize_source_key nB, 1)] := by
    rw [priorityRank]
    rw [if_pos (by simp [hA])]
    rw [priorityRank]
    rw [if_pos (by simp [hB, hne])]
    rfl
  rw [hpr]
  have hrA : rankOf [(_normalize_source_key nA, 0), (_normalize_source_key nB, 1)]
      ([(_normalize_source_key nA, 0), (_normalize_source_key nB, 1)].length)
      (_normalize_source_key pA.source_name) = 0 := by
    rw [hkA]
    unfold rankOf
    rw [List.find?_cons_of_pos _ (by simp)]
    rfl
  have hrB : rankOf [(_normalize_source_key nA, 0), (_normalize_source_key nB, 1)]
      ([(_normalize_source_key nA, 0), (_normalize_source_key nB, 1)].length)
      (_normalize_source_key pB.source_name) = 1 := by
    rw [hkB]
    unfold rankOf
    rw [List.find?_cons_of_neg _ (by simp [hne]),
      List.find?_cons_of_pos _ (by simp)]
    rfl
  show sortBy _ [pA, pB] = [pA, pB]
  rw [sortBy, sortBy, sortBy, insertBy, insertBy]
  rw [if_pos ?hle]
  case hle =>
    unfold keyLe sourceKey
    rw [hrA, hrB]
    simp



instance {e a : Type} [DecidableEq e] [DecidableEq a] : DecidableEq (Except e a) := fun x y =>
  match x, y with
  | .ok v, .ok w =>
      if h : v = w then .isTrue (by rw [h])
      else .isFalse (by intro hc; cases hc; exact h rfl)
  | .ok _, .error _ => .isFalse (by intro hc; cases hc)
  | .error _, .ok _ => .isFalse (by intro hc; cases hc)
  | .error v, .error w =>
      if h : v = w then .isTrue (by rw [h])
      else .isFalse (by intro hc; cases hc; exact h rfl)

theorem isBlank_vNull : _is_blank Value.vNull = true := rfl

/-- Sample rows for the concrete witness instances. -/
def blankHoa : HoaVals := ⟨.vNull, .vNull, .vNull, .vNull, .vNull⟩

def wTapeRow : TapeRow :=
  { loan_id := .vStr "L-1", hoa := blankHoa, hoa_source := .vNull,
    hoa_source_file := .vNull, extra := [("city", .vStr "A")] }

def wTape : List TapeRow := [wTapeRow]

def wSrcRowA : SrcRow :=
  { loan_id := .vStr "L-1", hoa := ⟨.vNum 100, .vNull, .vNull, .vNull, .vNull⟩,
    hoa_source := .vStr "vendor_a", hoa_source_file := .vStr "a.xlsx" }

def wSrcRowB : SrcRow :=
  { loan_id := .vStr "L-1", hoa := ⟨.vNum 150, .vNull, .vNull, .vNull, .vNull⟩,
    hoa_source := .vStr "vendor_b", hoa_source_file := .vStr "b.xlsx" }

def wSrcA : List SrcRow := [wSrcRowA]

def wSrcB : List SrcRow := [wSrcRowB]

def wPrepA : PreparedSource :=
  { original_index := 0, source_name := "vendor_a", source_file := some "a.xlsx",
    rows := [("L1", wSrcRowA)] }

def wPrepB : PreparedSource :=
  { original_index := 1, source_name := "vendor_b", source_file := some "b.xlsx",
    rows := [("L1", wSrcRowB)] }

/-- C1: for a tape whose identifiers all normalize to non-Absent and any
vendor list (empty included), a merge that returns without raising yields
exactly one merged row per tape row. -/
theorem C1_population_preservation (tape : List TapeRow) (srcs : List (List SrcRow))
    (prio : List String) (out : List MergedRow × List (String × VendorException))
    (hids : ∀ t ∈ tape, (normalize_loan_id t.loan_id).isSome = true)
    (h : merge_hoa_sources tape srcs prio = .ok out) :
    out.1.length = tape.length := by
  obtain ⟨prepared, hp⟩ := merge_ok_prepareAll h
  rw [(merge_ok_parts h hp).1, List.length_map]

theorem C1_witness :
    (merge_hoa_sources wTape [wSrcA] ["vendor_a"]).map (fun o => o.1.length) =
      .ok wTape.length := by
  cases hm : merge_hoa_sources wTape [wSrcA] ["vendor_a"] with
  | error e =>
      have hok : (merge_hoa_sources wTape [wSrcA] ["vendor_a"]).isOk = true := by decide
      rw [hm] at hok
      simp [Except.isOk, Except.toBool] at hok
  | ok out =>
      have hlen := C1_population_preservation wTape [wSrcA] ["vendor_a"] out
        (by decide) hm
      simp [Except.map, hlen]


theorem selectedForField_first {base : Value} {rA rB : SrcRow} {f : HField}
    (hv : _is_blank (rA.hoa.get f) = false) :
    (selectedForField base [some rA, some rB] f).1 = rA.hoa.get f := by
  unfold selectedForField
  have henum : ([some rA, some rB].map (fun o => getHoaOpt o f)).enum =
      [(0, rA.hoa.get f), (1, rB.hoa.get f)] := rfl
  rw [henum, List.foldl_cons, List.foldl_cons, List.foldl_nil]
  have h1 : waterfallStep ((Value.vNull : Value), (-1 : Int)) (0, rA.hoa.get f) =
      (rA.hoa.get f, (0 : Int)) := by
    unfold waterfallStep
    rw [isBlank_vNull, hv]
    rfl
  rw [h1]
  have h2 : waterfallStep (rA.hoa.get f, (0 : Int)) (1, rB.hoa.get f) =
      (rA.hoa.get f, (0 : Int)) := by
    unfold waterfallStep
    rw [hv]
    rfl
  rw [h2]
  dsimp only
  rw [hv]
  rfl

/-- C2: with two prepared sources resolved in priority order [A, B], both
carrying a row for the tape row's identifier, the merged value of any
enrichment field equals A's value whenever A's value is non-blank
(null, whitespace-only or NaN-like; 0 and "0" are non-blank). -/
theorem C2_priority_correctness (tape : List TapeRow) (dfA dfB : List SrcRow)
    (nA nB : String) (out : List MergedRow × List (String × VendorException))
    (pA pB : PreparedSource) (k : Nat) (t : TapeRow) (lid : String)
    (f : HField) (rA rB : SrcRow)
    (h : merge_hoa_sources tape [dfA, dfB] [nA, nB] = .ok out)
    (hA : _prepare_source dfA 0 = .ok pA)
    (hB : _prepare_source dfB 1 = .ok pB)
    (hkA : _normalize_source_key pA.source_name = _normalize_source_key nA)
    (hkB : _normalize_source_key pB.source_name = _normalize_source_key nB)
    (hA0 : _normalize_source_key nA ≠ "")
    (hB0 : _normalize_source_key nB ≠ "")
    (hne : _normalize_source_key nA ≠ _normalize_source_key nB)
    (ht : tape.get? k = some t)
    (hlid : normalize_loan_id t.loan_id = some lid)
    (hmA : (lid, rA) ∈ pA.rows)
    (hmB : (lid, rB) ∈ pB.rows)
    (hv : _is_blank (rA.hoa.get f) = false) :
    ∃ m, out.1.get? k = some m ∧ m.hoa.get f = rA.hoa.get f := by
  have hp : prepareAll [dfA, dfB] 0 = .ok [pA, pB] := by
    rw [prepareAll, hA, prepareAll, hB, prepareAll]
  have hres := resolve_two pA pB nA nB hkA hkB hA0 hB0 hne
  have hrows := (merge_ok_parts h hp).1
  rw [hres] at hrows
  have hlkA : lookupSrc pA lid = some rA :=
    lookupSrc_eq_some (_prepare_source_ok_nodup hA) hmA
  have hlkB : lookupSrc pB lid = some rB :=
    lookupSrc_eq_some (_prepare_source_ok_nodup hB) hmB
  have hget : out.1.get? k = some (buildMergedRow t
      ((normalize_loan_id t.loan_id).getD "")
      (lookupAll [pA, pB] ((normalize_loan_id t.loan_id).getD "")) [pA, pB]) := by
    rw [hrows, List.get?_map, ht]
    rfl
  refine ⟨_, hget, ?_⟩
  · rw [buildMergedRow_get]
    have hla : lookupAll [pA, pB] ((normalize_loan_id t.loan_id).getD "") =
        [some rA, some rB] := by
      rw [hlid]
      unfold lookupAll
      rw [List.map_cons, List.map_cons, List.map_nil]
      rw [Option.getD_some, hlkA, hlkB]
    rw [hla]
    exact selectedForField_first hv


theorem C2_witness :
    (merge_hoa_sources wTape [wSrcA, wSrcB] ["vendor_a", "vendor_b"]).map
      (fun o => (o.1.get? 0).map (fun m => m.hoa.get .duesAmount)) =
      .ok (some (Value.vNum 100)) := by
  cases hm : merge_hoa_sources wTape [wSrcA, wSrcB] ["vendor_a", "vendor_b"] with
  | error e =>
      have hok : (merge_hoa_sources wTape [wSrcA, wSrcB]
          ["vendor_a", "vendor_b"]).isOk = true := by decide
      rw [hm] at hok
      simp [Except.isOk, Except.toBool] at hok
  | ok out =>
      obtain ⟨m, h1, h2⟩ := C2_priority_correctness wTape wSrcA wSrcB "vendor_a"
        "vendor_b" out wPrepA wPrepB 0 wTapeRow "L1" HField.duesAmount wSrcRowA
        wSrcRowB hm (by decide) (by decide) (by decide) (by decide) (by decide)
        (by decide) (by decide) (by decide) (by decide) (by decide) (by decide)
        (by decide)
      simp only [Except.map]
      refine congrArg Except.ok ?_
      rw [h1, Option.map_some']
      exact congrArg some (h2.trans (by decide))

/-- C3: when every ordered source's joined value for a row and field is
blank, the waterfall falls back to the tape's pre-existing value with the
distinguished rank -2; when the tape value is itself blank the field stays
unset (None) with rank -1. -/
theorem C3_fallback_correctness (tape : List TapeRow) (srcs : List (List SrcRow))
    (prio : List String) (out : List MergedRow × List (String × VendorException))
    (prepared : List PreparedSource) (k : Nat) (t : TapeRow) (lid : String)
    (f : HField)
    (h : merge_hoa_sources tape srcs prio = .ok out)
    (hp : prepareAll srcs 0 = .ok prepared)
    (ht : tape.get? k = some t)
    (hlid : normalize_loan_id t.loan_id = some lid)
    (hblank : ∀ s ∈ _resolve_priority_order prepared prio,
        _is_blank (getHoaOpt (lookupSrc s lid) f) = true) :
    ∃ m, out.1.get? k = some m ∧
      selectedForField (t.hoa.get f)
        (lookupAll (_resolve_priority_order prepared prio) lid) f =
        (if _is_blank (t.hoa.get f) then ((Value.vNull : Value), (-1 : Int))
         else (t.hoa.get f, -2)) ∧
      m.hoa.get f =
        (if _is_blank (t.hoa.get f) then Value.vNull else t.hoa.get f) := by
  have hrows := (merge_ok_parts h hp).1
  have hget : out.1.get? k = some (buildMergedRow t
      ((normalize_loan_id t.loan_id).getD "")
      (lookupAll (_resolve_priority_order prepared prio)
        ((normalize_loan_id t.loan_id).getD ""))
      (_resolve_priority_order prepared prio)) := by
    rw [hrows, List.get?_map, ht]
    rfl
  rw [hlid] at hget
  simp only [Option.getD_some] at hget
  have hall : ∀ o ∈ lookupAll (_resolve_priority_order prepared prio) lid,
      _is_blank (getHoaOpt o f) = true := by
    intro o ho
    obtain ⟨s, hs, heq⟩ := List.mem_map.mp ho
    rw [← heq]
    exact hblank s hs
  have hsel := selectedForField_all_blank (t.hoa.get f) hall
  refine ⟨_, hget, hsel, ?_⟩
  rw [buildMergedRow_get, hsel]
  by_cases hb : _is_blank (t.hoa.get f) = true
  · simp [hb]
  · rw [Bool.not_eq_true] at hb
    simp [hb]

def wTapeRow3 : TapeRow :=
  { loan_id := .vStr "L-9", hoa := ⟨.vNum 50, .vNull, .vNull, .vNull, .vNull⟩,
    hoa_source := .vNull, hoa_source_file := .vNull, extra := [] }

def wTape3 : List TapeRow := [wTapeRow3]

theorem C3_witness :
    (merge_hoa_sources wTape3 [] []).map
      (fun o => (o.1.get? 0).map (fun m => m.hoa.get .duesAmount)) =
      .ok (some (Value.vNum 50)) := by
  cases hm : merge_hoa_sources wTape3 [] [] with
  | error e =>
      have hok : (merge_hoa_sources wTape3 [] []).isOk = true := by decide
      rw [hm] at hok
      simp [Except.isOk, Except.toBool] at hok
  | ok out =>
      obtain ⟨m, h1, hsel, h2⟩ := C3_fallback_correctness wTape3 [] [] out [] 0
        wTapeRow3 "L9" HField.duesAmount hm (by decide) (by decide) (by decide)
        (by decide)
      simp only [Except.map]
      refine congrArg Except.ok ?_
      rw [h1, Option.map_some']
      exact congrArg some (h2.trans (by decide))


def wDupTape : List TapeRow :=
  [{ loan_id := .vStr "L-1", hoa := blankHoa, hoa_source := .vNull,
     hoa_source_file := .vNull, extra := [] },
   { loan_id := .vStr "l1", hoa := blankHoa, hoa_source := .vNull,
     hoa_source_file := .vNull, extra := [] }]

/-- C4 counterexample: two tape rows normalizing to the same identifier
"L1" are accepted: merge_hoa_sources returns ok instead of raising, so
the duplicate half of the claim fails on the code. -/
theorem C4_counterexample :
    (normalize_loan_id (Value.vStr "L-1") = some "L1" ∧
     normalize_loan_id (Value.vStr "l1") = some "L1") ∧
    (merge_hoa_sources wDupTape [] []).isOk = true := by decide

/-- C4 (amended): merge_hoa_sources fails with the population-integrity
error naming the count of offending rows whenever some tape identifier
normalizes to Absent, and produces no merged output in that case; tape
identifier uniqueness is not checked. -/
theorem C4_blank_id_error (tape : List TapeRow) (srcs : List (List SrcRow))
    (prio : List String)
    (h : (tape.filter (fun t => (normalize_loan_id t.loan_id).isNone)).length ≠ 0) :
    merge_hoa_sources tape srcs prio =
      .error (.invalidTapeIds
        (tape.filter (fun t => (normalize_loan_id t.loan_id).isNone)).length) := by
  unfold merge_hoa_sources
  rw [if_pos h]

def wBadTape : List TapeRow :=
  [{ loan_id := .vNull, hoa := blankHoa, hoa_source := .vNull,
     hoa_source_file := .vNull, extra := [] }]

theorem C4_witness :
    (wBadTape.filter (fun t => (normalize_loan_id t.loan_id).isNone)).length ≠ 0 ∧
    merge_hoa_sources wBadTape [] [] = .error (.invalidTapeIds 1) := by
  refine ⟨by decide, ?_⟩
  exact C4_blank_id_error wBadTape [] [] (by decide)

/-- C8 counterexample: a priority entry matching no prepared source's
display name is silently ignored: this merge succeeds instead of failing
with a configuration error. -/
theorem C8_counterexample :
    _normalize_source_key "unknown_vendor" ≠ _normalize_source_key "vendor_a" ∧
    (merge_hoa_sources wTape [wSrcA] ["unknown_vendor"]).isOk = true := by decide

/-- C8 (amended): the engine's priority resolver has no failure path: for
every priority list, including ones naming unknown sources, it returns a
permutation of the prepared sources (unknown entries are ignored; the
known-names validation lives upstream in the run pipeline, not here). -/
theorem C8_unknown_priority_ignored (srcs : List PreparedSource)
    (priority : List String) :
    List.Perm (_resolve_priority_order srcs priority) srcs := by
  unfold _resolve_priority_order
  exact sortBy_perm _ srcs

/-- C5: source preparation fails iff, after dropping rows whose identifier
normalizes to Absent, two remaining rows share a normalized identifier;
the error payload is sorted, duplicate-free, and holds exactly the
identifiers occurring at least twice. -/
theorem C5_duplicate_rejection (df : List SrcRow) (i : Nat) :
    ((∃ e, _prepare_source df i = .error e) ↔
      ¬ ((keepIdentified df).map Prod.fst).Nodup) ∧
    (∀ l, _prepare_source df i = .error (.dupIds l) →
      l.Sorted (· ≤ ·) ∧ l.Nodup ∧
      ∀ x, x ∈ l ↔ 2 ≤ ((keepIdentified df).map Prod.fst).count x) := by
  simp only [_prepare_source]
  by_cases hd : (dupsAfterFirst ((keepIdentified df).map Prod.fst) []).isEmpty = true
  · rw [if_pos hd]
    constructor
    · constructor
      · rintro ⟨e, he⟩
        cases he
      · intro hnd
        exact absurd ((dupsAfterFirst_nil_iff _).mp (List.isEmpty_iff.mp hd)) hnd
    · intro l hl
      cases hl
  · rw [if_neg hd]
    have hne : dupsAfterFirst ((keepIdentified df).map Prod.fst) [] ≠ [] := by
      intro hc
      rw [hc] at hd
      exact hd rfl
    constructor
    · constructor
      · intro _
        intro hnd
        exact hne ((dupsAfterFirst_nil_iff _).mpr hnd)
      · intro _
        exact ⟨_, rfl⟩
    · intro l hl
      have hleq : l = sortStr (dedupFirst
          (dupsAfterFirst ((keepIdentified df).map Prod.fst) []) []) := by
        injection hl with h1
        injection h1 with h2
        exact h2.symm
      subst hleq
      refine ⟨sorted_sortStr _, nodup_sortStr _ (nodup_dedupFirst _ _), ?_⟩
      intro x
      rw [mem_sortStr, mem_dedupFirst, mem_dupsAfterFirst]
      constructor
      · rintro ⟨⟨hmem, hc | hc⟩, _⟩
        · cases hc
        · exact hc
      · intro hc
        have hx : x ∈ (keepIdentified df).map Prod.fst :=
          List.count_pos_iff.mp (by omega)
        exact ⟨⟨hx, Or.inr hc⟩, by simp⟩

def wDupSrc : List SrcRow := [wSrcRowA, wSrcRowA]

theorem C5_witness :
    _prepare_source wDupSrc 0 = .error (.dupIds ["L1"]) ∧
    (¬ ((keepIdentified wDupSrc).map Prod.fst).Nodup) ∧
    ("L1" ∈ ["L1"] ↔ 2 ≤ ((keepIdentified wDupSrc).map Prod.fst).count "L1") := by
  refine ⟨by decide, ?_, ?_⟩
  · exact (C5_duplicate_rejection wDupSrc 0).1.mp ⟨MergeError.dupIds ["L1"], by decide⟩
  · exact ((C5_duplicate_rejection wDupSrc 0).2 ["L1"] (by decide)).2.2 "L1"


theorem mem_setDiffSorted (x : String) (a b : List String) :
    x ∈ setDiffSorted a b ↔ x ∈ a ∧ x ∉ b := by
  unfold setDiffSorted
  rw [mem_sortStr, mem_dedupFirst]
  simp [List.mem_filter]

theorem buildExceptions_get (tapeIds : List String) :
    ∀ (ordered : List PreparedSource) (seen : List (String × Nat)) (j : Nat)
      (s : PreparedSource), ordered.get? j = some s →
      ∃ key, (buildExceptions tapeIds ordered seen).get? j =
        some (key, vendorException tapeIds (s.rows.map Prod.fst))
  | [], _, j, s => by
    intro hc
    cases hc
  | q :: rest, seen, 0, s => by
    intro hq
    injection hq with hq
    subst hq
    exact ⟨_, rfl⟩
  | q :: rest, seen, j + 1, s => by
    intro hq
    exact buildExceptions_get tapeIds rest (updateSeen seen q.source_name) j s hq

/-- C7: each ordered source's exception entry holds, in each direction, the
sorted duplicate-free list of identifiers on one side and not the other,
paired with its count; a vendor covering exactly the tape's identifier set
gets two empty lists. -/
theorem C7_exception_sets (tape : List TapeRow) (srcs : List (List SrcRow))
    (prio : List String) (out : List MergedRow × List (String × VendorException))
    (prepared : List PreparedSource) (j : Nat) (s : PreparedSource)
    (h : merge_hoa_sources tape srcs prio = .ok out)
    (hp : prepareAll srcs 0 = .ok prepared)
    (hs : (_resolve_priority_order prepared prio).get? j = some s) :
    ∃ key exc, out.2.get? j = some (key, exc) ∧
      exc.missing_in_vendor.Sorted (· ≤ ·) ∧ exc.missing_in_vendor.Nodup ∧
      (∀ x, x ∈ exc.missing_in_vendor ↔
        x ∈ tape.filterMap (fun t => normalize_loan_id t.loan_id) ∧
        x ∉ s.rows.map Prod.fst) ∧
      exc.extra_in_vendor.Sorted (· ≤ ·) ∧ exc.extra_in_vendor.Nodup ∧
      (∀ x, x ∈ exc.extra_in_vendor ↔
        x ∈ s.rows.map Prod.fst ∧
        x ∉ tape.filterMap (fun t => normalize_loan_id t.loan_id)) ∧
      exc.missing_in_vendor_count = exc.missing_in_vendor.length ∧
      exc.extra_in_vendor_count = exc.extra_in_vendor.length ∧
      ((∀ x ∈ tape.filterMap (fun t => normalize_loan_id t.loan_id),
          x ∈ s.rows.map Prod.fst) → exc.missing_in_vendor = []) ∧
      ((∀ x ∈ s.rows.map Prod.fst,
          x ∈ tape.filterMap (fun t => normalize_loan_id t.loan_id)) →
        exc.extra_in_vendor = []) := by
  have hexc := (merge_ok_parts h hp).2
  obtain ⟨key, hkey⟩ := buildExceptions_get
    (tape.filterMap (fun t => normalize_loan_id t.loan_id))
    (_resolve_priority_order prepared prio) [] j s hs
  refine ⟨key, _, by rw [hexc]; exact hkey, sorted_sortStr _,
    nodup_sortStr _ (nodup_dedupFirst _ _), fun x => mem_setDiffSorted x _ _,
    sorted_sortStr _, nodup_sortStr _ (nodup_dedupFirst _ _),
    fun x => mem_setDiffSorted x _ _, rfl, rfl, ?_, ?_⟩
  · intro hsub
    rw [List.eq_nil_iff_forall_not_mem]
    intro x hx
    simp only [vendorException] at hx
    rw [mem_setDiffSorted] at hx
    exact hx.2 (hsub x hx.1)
  · intro hsub
    rw [List.eq_nil_iff_forall_not_mem]
    intro x hx
    simp only [vendorException] at hx
    rw [mem_setDiffSorted] at hx
    exact hx.2 (hsub x hx.1)

theorem C7_witness :
    (merge_hoa_sources wTape [wSrcA] ["vendor_a"]).map
      (fun o => (o.2.get? 0).map
        (fun p => (p.2.missing_in_vendor, p.2.extra_in_vendor))) =
      .ok (some ([], [])) := by
  cases hm : merge_hoa_sources wTape [wSrcA] ["vendor_a"] with
  | error e =>
      have hok : (merge_hoa_sources wTape [wSrcA] ["vendor_a"]).isOk = true := by
        decide
      rw [hm] at hok
      simp [Except.isOk, Except.toBool] at hok
  | ok out =>
      obtain ⟨key, exc, h1, _, _, _, _, _, _, _, _, hmiss, hextra⟩ :=
        C7_exception_sets wTape [wSrcA] ["vendor_a"] out [wPrepA] 0 wPrepA hm
          (by decide) (by decide)
      simp only [Except.map]
      refine congrArg Except.ok ?_
      rw [h1, Option.map_some']
      refine congrArg some ?_
      rw [hmiss (by decide), hextra (by decide)]


theorem no_two_distinct_of_short {α : Type} {l : List α} (h : l.length ≤ 1)
    {a b : α} (ha : a ∈ l) (hb : b ∈ l) : a = b := by
  cases l with
  | nil => cases ha
  | cons x rest =>
    cases rest with
    | nil =>
      rw [List.mem_singleton] at ha hb
      rw [ha, hb]
    | cons y r2 => simp at h

theorem disagreeGo_spec :
    ∀ (vs : List Value) (seen : List Value), seen.length ≤ 1 →
      (disagreeGo vs seen = true ↔
        ∃ a ∈ seen ++ vs.filterMap _normalize_discrepancy_value,
        ∃ b ∈ seen ++ vs.filterMap _normalize_discrepancy_value, a ≠ b)
  | [], seen => by
    intro hlen
    rw [disagreeGo]
    simp only [List.filterMap_nil, List.append_nil]
    constructor
    · intro hc
      cases hc
    · rintro ⟨a, ha, b, hb, hne⟩
      exact absurd (no_two_distinct_of_short hlen ha hb) hne
  | v :: rest, seen => by
    intro hlen
    cases hnv : _normalize_discrepancy_value v with
    | none =>
      rw [disagreeGo, hnv, List.filterMap_cons_none hnv]
      exact disagreeGo_spec rest seen hlen
    | some d =>
      rw [disagreeGo, hnv, List.filterMap_cons_some hnv]
      dsimp only
      by_cases hd : d ∈ seen
      · rw [if_pos hd]
        rw [disagreeGo_spec rest seen hlen]
        have hset : ∀ x : Value,
            x ∈ seen ++ d :: rest.filterMap _normalize_discrepancy_value ↔
            x ∈ seen ++ rest.filterMap _normalize_discrepancy_value := by
          intro x
          simp only [List.mem_append, List.mem_cons]
          constructor
          · rintro (hx | rfl | hx)
            · exact Or.inl hx
            · exact Or.inl hd
            · exact Or.inr hx
          · rintro (hx | hx)
            · exact Or.inl hx
            · exact Or.inr (Or.inr hx)
        constructor
        · rintro ⟨a, ha, b, hb, hne⟩
          exact ⟨a, (hset a).mpr ha, b, (hset b).mpr hb, hne⟩
        · rintro ⟨a, ha, b, hb, hne⟩
          exact ⟨a, (hset a).mp ha, b, (hset b).mp hb, hne⟩
      · rw [if_neg hd]
        by_cases hseen : seen.length + 1 > 1
        · rw [if_pos hseen]
          match seen, hlen with
          | [], _ => simp at hseen
          | [s0], _ =>
            simp only [true_iff]
            refine ⟨s0, by simp, d, by simp, ?_⟩
            intro hc
            rw [hc] at hd
            exact hd (List.mem_singleton.mpr rfl)
        · rw [if_neg hseen]
          have hseen0 : seen = [] := by
            cases seen with
            | nil => rfl
            | cons s0 r =>
              exfalso
              apply hseen
              simp only [List.length_cons]
              omega
          subst hseen0
          rw [List.nil_append, disagreeGo_spec rest [d] (by simp)]
          simp only [List.nil_append, List.singleton_append]

theorem values_disagree_iff (vs : List Value) :
    _values_disagree vs = true ↔
      ∃ a ∈ vs.filterMap _normalize_discrepancy_value,
      ∃ b ∈ vs.filterMap _normalize_discrepancy_value, a ≠ b := by
  have := disagreeGo_spec vs [] (by simp)
  simpa using this

theorem rowDiscrepancy_iff (t : TapeRow) (srcs : List (Option SrcRow)) :
    rowDiscrepancy t srcs = true ↔
      ∃ f : HField,
        ∃ a ∈ (t.hoa.get f :: srcs.map (fun o => getHoaOpt o f)).filterMap
          _normalize_discrepancy_value,
        ∃ b ∈ (t.hoa.get f :: srcs.map (fun o => getHoaOpt o f)).filterMap
          _normalize_discrepancy_value, a ≠ b := by
  unfold rowDiscrepancy
  by_cases he : srcs.isEmpty = true
  · rw [if_pos he]
    have hnil : srcs = [] := List.isEmpty_iff.mp he
    subst hnil
    simp only [List.map_nil]
    constructor
    · intro hc
      cases hc
    · rintro ⟨f, a, ha, b, hb, hne⟩
      have hlen : ((t.hoa.get f :: ([] : List Value)).filterMap
          _normalize_discrepancy_value).length ≤ 1 := by
        have h2 := List.length_filterMap_le _normalize_discrepancy_value
          [t.hoa.get f]
        simpa using h2
      exact absurd (no_two_distinct_of_short hlen ha hb) hne
  · rw [if_neg he, List.any_eq_true]
    constructor
    · rintro ⟨f, hf, hdis⟩
      exact ⟨f, (values_disagree_iff _).mp hdis⟩
    · rintro ⟨f, hex⟩
      refine ⟨f, ?_, (values_disagree_iff _).mpr hex⟩
      cases f <;> simp [HField.all]

/-- C6: a merged row's discrepancy flag is true exactly when some
enrichment field collects two distinct values (blanks excluded, strings
trimmed) across the tape's pre-existing value and every ordered source's
raw joined value, independently of the waterfall selection. -/
theorem C6_discrepancy_flag (tape : List TapeRow) (srcs : List (List SrcRow))
    (prio : List String) (out : List MergedRow × List (String × VendorException))
    (prepared : List PreparedSource) (k : Nat) (t : TapeRow) (lid : String)
    (h : merge_hoa_sources tape srcs prio = .ok out)
    (hp : prepareAll srcs 0 = .ok prepared)
    (ht : tape.get? k = some t)
    (hlid : normalize_loan_id t.loan_id = some lid) :
    ∃ m, out.1.get? k = some m ∧
      (m.hoa_discrepancy_flag = true ↔
        ∃ f : HField,
          ∃ a ∈ (t.hoa.get f ::
              (lookupAll (_resolve_priority_order prepared prio) lid).map
                (fun o => getHoaOpt o f)).filterMap _normalize_discrepancy_value,
          ∃ b ∈ (t.hoa.get f ::
              (lookupAll (_resolve_priority_order prepared prio) lid).map
                (fun o => getHoaOpt o f)).filterMap _normalize_discrepancy_value,
            a ≠ b) := by
  have hrows := (merge_ok_parts h hp).1
  have hget : out.1.get? k = some (buildMergedRow t
      ((normalize_loan_id t.loan_id).getD "")
      (lookupAll (_resolve_priority_order prepared prio)
        ((normalize_loan_id t.loan_id).getD ""))
      (_resolve_priority_order prepared prio)) := by
    rw [hrows, List.get?_map, ht]
    rfl
  rw [hlid] at hget
  simp only [Option.getD_some] at hget
  exact ⟨_, hget, rowDiscrepancy_iff t _⟩

theorem C6_witness :
    (merge_hoa_sources wTape [wSrcA, wSrcB] ["vendor_a", "vendor_b"]).map
      (fun o => (o.1.get? 0).map (fun m => m.hoa_discrepancy_flag)) =
      .ok (some true) := by
  cases hm : merge_hoa_sources wTape [wSrcA, wSrcB] ["vendor_a", "vendor_b"] with
  | error e =>
      have hok : (merge_hoa_sources wTape [wSrcA, wSrcB]
          ["vendor_a", "vendor_b"]).isOk = true := by decide
      rw [hm] at hok
      simp [Except.isOk, Except.toBool] at hok
  | ok out =>
      obtain ⟨m, h1, hiff⟩ := C6_discrepancy_flag wTape [wSrcA, wSrcB]
        ["vendor_a", "vendor_b"] out [wPrepA, wPrepB] 0 wTapeRow "L1" hm
        (by decide) (by decide) (by decide)
      simp only [Except.map]
      refine congrArg Except.ok ?_
      rw [h1, Option.map_some']
      refine congrArg some ?_
      exact hiff.mpr ⟨HField.duesAmount, Value.vNum 100, by decide,
        Value.vNum 150, by decide, by decide⟩


theorem merge_ok_ids {tape : List TapeRow} {srcs : List (List SrcRow)}
    {prio : List String} {out : List MergedRow × List (String × VendorException)}
    (h : merge_hoa_sources tape srcs prio = .ok out) :
    ∀ t ∈ tape, (normalize_loan_id t.loan_id).isSome = true := by
  simp only [merge_hoa_sources] at h
  split at h
  · cases h
  · rename_i hcond
    push_neg at hcond
    intro t ht
    by_contra hc
    have hmem : t ∈ tape.filter (fun t => (normalize_loan_id t.loan_id).isNone) := by
      refine List.mem_filter.mpr ⟨ht, ?_⟩
      rw [Option.isNone_iff_eq_none, ← Option.not_isSome_iff_eq_none]
      exact fun hs => hc hs
    have hpos := List.length_pos_of_mem hmem
    omega

/-- C10: the merge preserves the tape's row count and order; every column
outside loan_id and the seven canonical HOA columns passes through
untouched per row, the tape's own provenance columns are kept as columns
of the output, and loan_id is replaced by its normalized form. -/
theorem C10_frame_preservation (tape : List TapeRow) (srcs : List (List SrcRow))
    (prio : List String) (out : List MergedRow × List (String × VendorException))
    (h : merge_hoa_sources tape srcs prio = .ok out) :
    out.1.length = tape.length ∧
    ∀ k t, tape.get? k = some t → ∃ m, out.1.get? k = some m ∧
      m.extra = t.extra ∧ m.hoa_source = t.hoa_source ∧
      m.hoa_source_file = t.hoa_source_file ∧
      normalize_loan_id t.loan_id = some m.loan_id := by
  obtain ⟨prepared, hp⟩ := merge_ok_prepareAll h
  have hrows := (merge_ok_parts h hp).1
  constructor
  · rw [hrows, List.length_map]
  · intro k t ht
    have hsome : (normalize_loan_id t.loan_id).isSome = true :=
      merge_ok_ids h t (List.get?_mem ht)
    obtain ⟨lid, hlid⟩ := Option.isSome_iff_exists.mp hsome
    refine ⟨_, by rw [hrows, List.get?_map, ht]; rfl, rfl, rfl, rfl, ?_⟩
    simp only [hlid]
    rfl

theorem C10_witness :
    (merge_hoa_sources wTape [wSrcA] ["vendor_a"]).map
      (fun o => (o.1.get? 0).map
        (fun m => (m.extra, m.hoa_source, m.hoa_source_file, m.loan_id))) =
      .ok (some ([("city", Value.vStr "A")], Value.vNull, Value.vNull, "L1")) := by
  cases hm : merge_hoa_sources wTape [wSrcA] ["vendor_a"] with
  | error e =>
      have hok : (merge_hoa_sources wTape [wSrcA] ["vendor_a"]).isOk = true := by
        decide
      rw [hm] at hok
      simp [Except.isOk, Except.toBool] at hok
  | ok out =>
      obtain ⟨m, h1, h2, h3, h4, h5⟩ :=
        (C10_frame_preservation wTape [wSrcA] ["vendor_a"] out hm).2 0 wTapeRow
          (by decide)
      simp only [Except.map]
      refine congrArg Except.ok ?_
      rw [h1, Option.map_some']
      refine congrArg some ?_
      have h6 : m.loan_id = "L1" := by
        have := h5.symm.trans (by decide : normalize_loan_id wTapeRow.loan_id = some "L1")
        injection this
      rw [h2, h3, h4, h6]
      rfl


theorem isAsciiAlnum_iff (c : Char) :
    isAsciiAlnum c = true ↔
      (65 ≤ c.toNat ∧ c.toNat ≤ 90) ∨ (97 ≤ c.toNat ∧ c.toNat ≤ 122) ∨
      (48 ≤ c.toNat ∧ c.toNat ≤ 57) := by
  unfold isAsciiAlnum
  simp only [Bool.or_eq_true, Bool.and_eq_true, decide_eq_true_eq, Char.le_def,
    UInt32.le_def, BitVec.le_def]
  rw [or_assoc]
  exact Iff.rfl

theorem char_eq_iff_toNat (c d : Char) : c = d ↔ c.toNat = d.toNat := by
  constructor
  · intro h
    rw [h]
  · intro h
    have h2 := congrArg Char.ofNat h
    simpa using h2

theorem toNat_ofNat_valid (n : Nat) (h : n < 55296) : (Char.ofNat n).toNat = n := by
  unfold Char.ofNat
  rw [dif_pos (Or.inl h)]
  rfl

theorem toUpper_toNat_low {c : Char} (h2 : 97 ≤ c.toNat) (h : c.toNat ≤ 122) :
    (Char.toUpper c).toNat = c.toNat - 32 := by
  unfold Char.toUpper
  rw [if_pos ⟨h2, h⟩]
  exact toNat_ofNat_valid _ (by omega)

theorem toUpper_fixed_of_notlow {c : Char} (h : ¬(97 ≤ c.toNat ∧ c.toNat ≤ 122)) :
    Char.toUpper c = c := by
  unfold Char.toUpper
  rw [if_neg h]

/-- A character the pipeline can output: ASCII alphanumeric and a
fixed point of upper-casing. -/
def isCanonChar (c : Char) : Bool := isAsciiAlnum c && (Char.toUpper c == c)

theorem toUpper_canon {c : Char} (h0 : isAsciiAlnum c = true) :
    isCanonChar (Char.toUpper c) = true := by
  have h := (isAsciiAlnum_iff c).mp h0
  by_cases hlow : 97 ≤ c.toNat ∧ c.toNat ≤ 122
  · have hup := toUpper_toNat_low hlow.1 hlow.2
    rw [isCanonChar, Bool.and_eq_true, beq_iff_eq]
    constructor
    · rw [isAsciiAlnum_iff, hup]
      left
      omega
    · apply toUpper_fixed_of_notlow
      rw [hup]
      omega
  · have hfix := toUpper_fixed_of_notlow hlow
    rw [isCanonChar, hfix, hfix, Bool.and_eq_true, beq_iff_eq]
    exact ⟨h0, rfl⟩

theorem canon_toUpper_fixed {c : Char} (h : isCanonChar c = true) :
    Char.toUpper c = c := by
  rw [isCanonChar, Bool.and_eq_true, beq_iff_eq] at h
  exact h.2

theorem canon_alnum {c : Char} (h : isCanonChar c = true) :
    isAsciiAlnum c = true := by
  rw [isCanonChar, Bool.and_eq_true] at h
  exact h.1

theorem canon_ranges {c : Char} (h : isCanonChar c = true) :
    (65 ≤ c.toNat ∧ c.toNat ≤ 90) ∨ (48 ≤ c.toNat ∧ c.toNat ≤ 57) := by
  have ha := (isAsciiAlnum_iff c).mp (canon_alnum h)
  rcases ha with h1 | h1 | h1
  · exact Or.inl h1
  · exfalso
    have hup := toUpper_toNat_low h1.1 h1.2
    have hfix := canon_toUpper_fixed h
    rw [hfix] at hup
    omega
  · exact Or.inr h1

theorem canon_not_ws {c : Char} (h : isCanonChar c = true) : isPyWs c = false := by
  have hr := canon_ranges h
  have h1 : c ≠ ' ' := fun he => absurd (he ▸ hr) (by decide)
  have h2 : c ≠ Char.ofNat 9 := fun he => absurd (he ▸ hr) (by decide)
  have h3 : c ≠ Char.ofNat 10 := fun he => absurd (he ▸ hr) (by decide)
  have h4 : c ≠ Char.ofNat 13 := fun he => absurd (he ▸ hr) (by decide)
  have h5 : c ≠ Char.ofNat 11 := fun he => absurd (he ▸ hr) (by decide)
  have h6 : c ≠ Char.ofNat 12 := fun he => absurd (he ▸ hr) (by decide)
  unfold isPyWs
  simp [h1, h2, h3, h4, h5, h6]

theorem canon_not_dot {c : Char} (h : isCanonChar c = true) : c ≠ '.' :=
  fun he => absurd (he ▸ canon_ranges h) (by decide)

theorem dropWhile_eq_self_of {l : List Char} (h : ∀ c ∈ l, isPyWs c = false) :
    l.dropWhile isPyWs = l := by
  cases l with
  | nil => rfl
  | cons c rest =>
    exact List.dropWhile_cons_of_neg (by simp [h c (List.mem_cons_self _ _)])

theorem stripChars_eq_self {l : List Char} (h : ∀ c ∈ l, isPyWs c = false) :
    stripChars l = l := by
  unfold stripChars
  rw [dropWhile_eq_self_of h,
    dropWhile_eq_self_of (fun c hc => h c (List.mem_reverse.mp hc)),
    List.reverse_reverse]

theorem dropDotZero_eq_self {l : List Char} (h : ∀ c ∈ l, c ≠ Char.ofNat 46) :
    dropDotZero l = l := by
  unfold dropDotZero
  rw [if_neg]
  intro hsuf
  have hmem : Char.ofNat 46 ∈ l := hsuf.subset (by decide)
  exact h _ hmem rfl

theorem map_toUpper_eq_self {l : List Char} (h : ∀ c ∈ l, Char.toUpper c = c) :
    l.map Char.toUpper = l := by
  induction l with
  | nil => rfl
  | cons c rest ih =>
    rw [List.map_cons, h c (List.mem_cons_self _ _),
      ih (fun d hd => h d (List.mem_cons_of_mem _ hd))]

theorem normStringId_canon {s out : String} (h : normStringId s = some out) :
    out.data ≠ [] ∧ ∀ c ∈ out.data, isCanonChar c = true := by
  simp only [normStringId] at h
  split at h
  · cases h
  · rename_i hne
    injection h with h
    subst h
    refine ⟨by simpa [List.isEmpty_iff] using hne, ?_⟩
    intro c hc
    obtain ⟨c0, hc0, heq⟩ := List.mem_map.mp hc
    rw [← heq]
    exact toUpper_canon (List.mem_filter.mp hc0).2

theorem normStringId_of_canon {t : String}
    (hne : t.data ≠ []) (hcanon : ∀ c ∈ t.data, isCanonChar c = true) :
    normStringId t = some t := by
  have hstrip : stripChars t.data = t.data :=
    stripChars_eq_self (fun c hc => canon_not_ws (hcanon c hc))
  have hdot : dropDotZero (stripChars t.data) = t.data := by
    rw [hstrip]
    exact dropDotZero_eq_self (fun c hc => canon_not_dot (hcanon c hc))
  have hmap : ((dropDotZero (stripChars t.data)).filter isAsciiAlnum).map
      Char.toUpper = t.data := by
    rw [hdot, List.filter_eq_self.mpr (fun c hc => canon_alnum (hcanon c hc))]
    exact map_toUpper_eq_self (fun c hc => canon_toUpper_fixed (hcanon c hc))
  simp only [normStringId, hmap]
  rw [if_neg (by simp [hne])]

/-- C9: identifier normalization is total over scalar cells and idempotent:
whenever it returns a non-Absent identifier, normalizing that identifier
returns the identifier itself, so all text representations of a logical
identifier share one key (e.g. "1001.0", " 1001 ", "1001" all give
"1001"). -/
theorem C9_normalize_total_idempotent :
    (∀ x : Value, normalize_loan_id x = none ∨ ∃ s, normalize_loan_id x = some s) ∧
    (∀ x s, normalize_loan_id x = some s →
      normalize_loan_id (Value.vStr s) = some s) ∧
    (normalize_loan_id (.vStr "1001.0") = some "1001" ∧
     normalize_loan_id (.vStr " 1001 ") = some "1001" ∧
     normalize_loan_id (.vStr "1001") = some "1001") := by
  refine ⟨?_, ?_, by decide, by decide, by decide⟩
  · intro x
    cases hx : normalize_loan_id x with
    | none => exact Or.inl rfl
    | some s => exact Or.inr ⟨s, rfl⟩
  · intro x s hx
    have hcanon : s.data ≠ [] ∧ ∀ c ∈ s.data, isCanonChar c = true := by
      cases x with
      | vNull => cases hx
      | vNaN => cases hx
      | vStr s0 => exact normStringId_canon hx
      | vNum n => exact normStringId_canon hx
    show normStringId s = some s
    exact normStringId_of_canon hcanon.1 hcanon.2

theorem C9_witness :
    normalize_loan_id (Value.vStr "1001.0") = some "1001" ∧
    normalize_loan_id (Value.vStr "1001") = some "1001" :=
  ⟨by decide,
   C9_normalize_total_idempotent.2.1 (Value.vStr "1001.0") "1001" (by decide)⟩

end HoaReport
